import Mathlib

/-!
Shallow embedding of the retrieval core of `ai_agent/rag_logic.py`:
keyword tokenization, inverted-index construction (`extract_keywords`),
relevance scoring (`retrieve_relevant_products`), criteria filtering
(`filter_by_criteria`) and query-intent extraction (`analyze_query_intent`),
together with theorems settling the specification's claims about them.

Python strings are modelled as `List Char` (after explicit lower-casing
where the source lower-cases); Python dicts with insertion order are
modelled as association lists; `collections.Counter` is an association
list of `(position, count)` pairs in first-insertion order, and
`Counter.most_common(n)` is a stable descending insertion sort by count
followed by `take n` (CPython's `heapq.nlargest` is stable in exactly
this sense).  Python floats produced by `float(...)` on the extracted
decimal substrings are modelled exactly as rationals.
-/

/-- Word characters of the regex `\w` (ASCII fragment): letters, digits, underscore. -/
def isWordChar (c : Char) : Bool :=
  c.isAlphanum || c == '_'

/-- Helper for `tokenize`: `acc` holds the current (reversed) run of word chars. -/
def tokenizeAux : List Char → List Char → List (List Char)
  | [], acc => if acc.isEmpty then [] else [acc.reverse]
  | c :: cs, acc =>
    if isWordChar c then tokenizeAux cs (c :: acc)
    else if acc.isEmpty then tokenizeAux cs []
    else acc.reverse :: tokenizeAux cs []

/-- `re.findall(r'\b\w+\b', s)`: the maximal runs of word characters of `s`. -/
def tokenize (s : List Char) : List (List Char) :=
  tokenizeAux s []

/-- Python `str.lower()`, character-wise, on the character list of a string. -/
def lowerStr (s : String) : List Char :=
  s.data.map Char.toLower

/-- A scraped product record: the five recognized free-text fields, each optional. -/
structure Product where
  name : Option String
  description : Option String
  price : Option String
  rating : Option String
  availability : Option String
deriving DecidableEq, Repr

instance : Inhabited Product := ⟨⟨none, none, none, none, none⟩⟩

/-- A record as returned by the Relevance Scorer: a copy of the product,
optionally annotated with the accumulated `relevance_score`. -/
structure ScoredProduct where
  product : Product
  relevance_score : Option Nat
deriving DecidableEq, Repr

/-- The inverted index: token ↦ postings list of 0-based record positions,
as an insertion-ordered association list (a Python dict). -/
abbrev Index := List (List Char × List Nat)

/-- `' '.join(filter(None, text_fields)).lower()` over the five text fields. -/
def combinedText (p : Product) : List Char :=
  let fields := [p.name.getD "", p.description.getD "", p.price.getD "",
                 p.rating.getD "", p.availability.getD ""]
  ((String.intercalate " " (fields.filter (fun s => !(s == "")))).data).map Char.toLower

/-- Append position `i` to token `w`'s postings list, creating the entry at the
end if `w` is not yet a key (Python dict append semantics). -/
def indexAdd : Index → List Char → Nat → Index
  | [], w, i => [(w, [i])]
  | (a, ps) :: rest, w, i =>
    if a = w then (a, ps ++ [i]) :: rest else (a, ps) :: indexAdd rest w i

/-- Lookup of a token's postings list (first matching key). -/
def indexLookup : Index → List Char → Option (List Nat)
  | [], _ => none
  | (a, ps) :: rest, w => if a = w then some ps else indexLookup rest w

/-- Process one record's tokens: every token of length > 2 appends the record
position `i` to its postings list (tokens of length ≤ 2 are dropped). -/
def indexAddWords (idx : Index) (i : Nat) (ws : List (List Char)) : Index :=
  ws.foldl (fun a w => if w.length > 2 then indexAdd a w i else a) idx

/-- The `for i, product in enumerate(self.products)` loop of `extract_keywords`. -/
def buildIndex : Nat → List Product → Index → Index
  | _, [], idx => idx
  | i, p :: ps, idx => buildIndex (i + 1) ps (indexAddWords idx i (tokenize (combinedText p)))

/-- `SimpleRAG.extract_keywords`: the inverted index of a record collection. -/
def extract_keywords (products : List Product) : Index :=
  buildIndex 0 products []

/-- `collections.Counter` keyed by record position, in first-insertion order. -/
abbrev Counter := List (Nat × Nat)

/-- `counter[k] += 1`: bump the first entry with key `k`, or append `(k, 1)`. -/
def counterInc : Counter → Nat → Counter
  | [], k => [(k, 1)]
  | (a, b) :: rest, k =>
    if a = k then (a, b + 1) :: rest else (a, b) :: counterInc rest k

/-- The count stored for key `k` (0 when absent). -/
def counterGet : Counter → Nat → Nat
  | [], _ => 0
  | (a, b) :: rest, k => if a = k then b else counterGet rest k

/-- One iteration of the scoring loop: a query token present in the index
bumps the count of every position in its postings list; a missing token
contributes nothing. -/
def scoreStep (keywords : Index) (c : Counter) (w : List Char) : Counter :=
  match indexLookup keywords w with
  | some ps => ps.foldl counterInc c
  | none => c

/-- The `product_scores` counter after scanning all query tokens. -/
def scoreCounter (products : List Product) (query : String) : Counter :=
  (tokenize (lowerStr query)).foldl (scoreStep (extract_keywords products)) []

/-- Insert `x` into a descending-by-count list, after every entry with count
≥ `x.2` (the stable insertion underlying `most_common`). -/
def insertDesc (x : Nat × Nat) : List (Nat × Nat) → List (Nat × Nat)
  | [] => [x]
  | y :: ys => if y.2 < x.2 then x :: y :: ys else y :: insertDesc x ys

/-- Stable descending sort by count (insertion sort, preserving first-insertion
order among equal counts — the order `Counter.most_common` guarantees). -/
def sortDesc (l : List (Nat × Nat)) : List (Nat × Nat) :=
  l.foldl (fun acc x => insertDesc x acc) []

/-- `product_scores.most_common(top_k)`: the ranked `(position, score)` pairs. -/
def retrieveRanked (products : List Product) (query : String) (top_k : Nat) :
    List (Nat × Nat) :=
  (sortDesc (scoreCounter products query)).take top_k

/-- `SimpleRAG.retrieve_relevant_products`: annotate the ranked records with
their scores; if nothing scored, fall back to the first `top_k` records,
unannotated. -/
def retrieve_relevant_products (products : List Product) (query : String)
    (top_k : Nat) : List ScoredProduct :=
  let top_products := (retrieveRanked products query top_k).map
    (fun e => ⟨products.getD e.1 default, some e.2⟩)
  if top_products.isEmpty then (products.take top_k).map (fun p => ⟨p, none⟩)
  else top_products

/-- `text.replace(',', '')`. -/
def stripCommas (s : List Char) : List Char :=
  s.filter (fun c => !(c == ','))

/-- Decimal digit run to a natural number. -/
def digitsToNat (ds : List Char) : Nat :=
  ds.foldl (fun n c => 10 * n + (c.toNat - 48)) 0

/-- `float(re.search(r'[\d,]+\.?\d*', s).group())` on a comma-free string `s`
(`re.search(r'(\d+\.?\d*)', s)` behaves identically): the first maximal digit
run, optionally followed by a dot and a further digit run, read as an exact
decimal; `none` when `s` has no digit. -/
def extractNumber (s : List Char) : Option ℚ :=
  let t := s.dropWhile (fun c => !c.isDigit)
  if t.isEmpty then none
  else
    let intp := t.takeWhile Char.isDigit
    let rest := t.drop intp.length
    let frac :=
      match rest with
      | '.' :: r => r.takeWhile Char.isDigit
      | _ => []
    some ((digitsToNat intp : ℚ) + (digitsToNat frac : ℚ) / (10 : ℚ) ^ frac.length)

/-- The criteria object: recognized optional keys of `filter_by_criteria`.
`available_only` is `some b` when the key is present with value `b`. -/
structure Criteria where
  min_price : Option ℚ
  max_price : Option ℚ
  min_rating : Option ℚ
  available_only : Option Bool
deriving DecidableEq

/-- The price-range block of `filter_by_criteria`: runs only when a price bound
is configured; a record whose price text has no number fails it. -/
def priceOk (c : Criteria) (p : Product) : Bool :=
  if c.min_price.isSome || c.max_price.isSome then
    match extractNumber (stripCommas (p.price.getD "").data) with
    | some price =>
      (match c.min_price with
       | some m => !(decide (price < m))
       | none => true) &&
      (match c.max_price with
       | some mx => !(decide (mx < price))
       | none => true)
    | none => false
  else true

/-- The rating block of `filter_by_criteria`. -/
def ratingOk (c : Criteria) (p : Product) : Bool :=
  match c.min_rating with
  | some m =>
    match extractNumber (p.rating.getD "").data with
    | some r => !(decide (r < m))
    | none => false
  | none => true

/-- Substring containment test, `needle in hay` on Python strings. -/
def containsSub (needle : List Char) : List Char → Bool
  | [] => needle.isEmpty
  | c :: t => needle.isPrefixOf (c :: t) || containsSub needle t

/-- `product.get('availability', '').lower()`. -/
def availText (p : Product) : List Char :=
  (p.availability.getD "").data.map Char.toLower

/-- The availability block of `filter_by_criteria`: active only when
`available_only` is present and true. -/
def availOk (c : Criteria) (p : Product) : Bool :=
  match c.available_only with
  | some true =>
    !(containsSub "out of stock".data (availText p) ||
      containsSub "unavailable".data (availText p))
  | _ => true

/-- A record passes `filter_by_criteria` iff every configured block passes. -/
def matchesCriteria (c : Criteria) (p : Product) : Bool :=
  priceOk c p && ratingOk c p && availOk c p

/-- `SimpleRAG.filter_by_criteria`: the records passing all configured
constraints, in original order. -/
def filter_by_criteria (products : List Product) (c : Criteria) : List Product :=
  products.filter (matchesCriteria c)

/-- The intent object produced by `analyze_query_intent`. -/
structure Intent where
  sort_by : Option String
  available_only : Option Bool
  max_price : Option ℚ
  min_price : Option ℚ
deriving DecidableEq

/-- `any(word in query_lower for word in ['cheap', 'cheapest', 'lowest price', 'budget'])`. -/
def cheapHit (q : List Char) : Bool :=
  containsSub "cheap".data q || containsSub "cheapest".data q ||
  containsSub "lowest price".data q || containsSub "budget".data q

/-- The expense-language test of `analyze_query_intent`. -/
def expHit (q : List Char) : Bool :=
  containsSub "expensive".data q || containsSub "highest price".data q ||
  containsSub "premium".data q

/-- The quality-language test of `analyze_query_intent`. -/
def bestHit (q : List Char) : Bool :=
  containsSub "best".data q || containsSub "highest rated".data q ||
  containsSub "top rated".data q || containsSub "best rating".data q

/-- The inverse-quality test of `analyze_query_intent`. -/
def worstHit (q : List Char) : Bool :=
  containsSub "worst".data q || containsSub "lowest rated".data q ||
  containsSub "poor rating".data q

/-- The availability-language test of `analyze_query_intent`. -/
def availHit (q : List Char) : Bool :=
  containsSub "available".data q || containsSub "in stock".data q ||
  containsSub "buy now".data q

/-- `re.search(kw + r'\$?(\d+)', q)`: scan left to right for the literal `kw`
followed by an optional dollar sign and at least one digit; the captured
maximal digit run as a natural number. -/
def findKwNumber (kw : List Char) : List Char → Option Nat
  | [] => none
  | c :: cs =>
    if kw.isPrefixOf (c :: cs) then
      let rest := (c :: cs).drop kw.length
      let rest2 := if rest.head? = some '$' then rest.tail else rest
      let ds := rest2.takeWhile Char.isDigit
      if ds.isEmpty then findKwNumber kw cs else some (digitsToNat ds)
    else findKwNumber kw cs

/-- `analyze_query_intent`: the price-intent assignment to `sort_by` is made
first and the rating-intent assignment second, so the rating tests win when
both match; written here as the equivalent right-nested conditional. -/
def analyze_query_intent (query : String) : Intent :=
  { sort_by :=
      if bestHit (lowerStr query) then some "rating_desc"
      else if worstHit (lowerStr query) then some "rating_asc"
      else if cheapHit (lowerStr query) then some "price_asc"
      else if expHit (lowerStr query) then some "price_desc"
      else none
    available_only := if availHit (lowerStr query) then some true else none
    max_price := (findKwNumber "under ".data (lowerStr query)).map (fun n => (n : ℚ))
    min_price := (findKwNumber "over ".data (lowerStr query)).map (fun n => (n : ℚ)) }

/-- The postings list the index of `products` stores for token `w` (empty when absent). -/
def postingsOf (products : List Product) (w : List Char) : List Nat :=
  (indexLookup (extract_keywords products) w).getD []

/-- Total number of matching query-token occurrences for record position `i`:
query tokens counted with multiplicity, and each counted once per occurrence
of `i` in that token's postings list. -/
def totalMatchOccs (products : List Product) (q : String) (i : Nat) : Nat :=
  ((tokenize (lowerStr q)).map (fun w => (postingsOf products w).count i)).sum

/-- The number of distinct query tokens that match record position `i`
(the quantity named by the claimed scoring bound). -/
def specDistinctMatched (products : List Product) (q : String) (i : Nat) : Nat :=
  ((tokenize (lowerStr q)).dedup.filter (fun w => (postingsOf products w).contains i)).length

/-- The `sort_by` value derived from the rating-intent tests alone. -/
def ratingSort (q : List Char) : Option String :=
  if bestHit q then some "rating_desc"
  else if worstHit q then some "rating_asc"
  else none

/-- `Tightens ct cl`: criteria `ct` equals `cl` except that exactly one bound
was tightened — `min_price` or `min_rating` raised, `max_price` lowered, or
`available_only` set to true from absent-or-false. -/
def Tightens (ct cl : Criteria) : Prop :=
  (∃ a a', cl.min_price = some a ∧ ct.min_price = some a' ∧ a ≤ a' ∧
    ct.max_price = cl.max_price ∧ ct.min_rating = cl.min_rating ∧
    ct.available_only = cl.available_only) ∨
  (∃ b b', cl.max_price = some b ∧ ct.max_price = some b' ∧ b' ≤ b ∧
    ct.min_price = cl.min_price ∧ ct.min_rating = cl.min_rating ∧
    ct.available_only = cl.available_only) ∨
  (∃ r r', cl.min_rating = some r ∧ ct.min_rating = some r' ∧ r ≤ r' ∧
    ct.min_price = cl.min_price ∧ ct.max_price = cl.max_price ∧
    ct.available_only = cl.available_only) ∨
  ((cl.available_only = none ∨ cl.available_only = some false) ∧
    ct.available_only = some true ∧ ct.min_price = cl.min_price ∧
    ct.max_price = cl.max_price ∧ ct.min_rating = cl.min_rating)

/-- Postings lists of an index all refer to positions below `n`. -/
def IndexBounded (n : Nat) (idx : Index) : Prop :=
  ∀ e ∈ idx, ∀ j ∈ e.2, j < n

/-- Descending order by accumulated count. -/
def SortedDesc (l : List (Nat × Nat)) : Prop :=
  l.Pairwise (fun a b => b.2 ≤ a.2)

/-- A record whose only text repeats one token twice. -/
def demoApple : Product := ⟨some "apple apple", none, none, none, none⟩

/-- A record matching only the token "bbb". -/
def demoB : Product := ⟨some "bbb", none, none, none, none⟩

/-- A record matching only the token "aaa". -/
def demoA : Product := ⟨some "aaa", none, none, none, none⟩

/-- Example 1 of the specification: the in-stock Widget record. -/
def widgetP : Product :=
  ⟨some "Widget", none, some "$10.00", some "4.5 out of 5", some "In Stock"⟩

/-- Example 1 of the specification: the out-of-stock Gadget record. -/
def gadgetP : Product :=
  ⟨some "Gadget", none, some "$50.00", some "3.0 out of 5", some "Out of Stock"⟩

/-- A record whose price text holds no decimal number. -/
def demoNAPrice : Product := ⟨some "Thing", none, some "N/A", none, none⟩

/-- Criteria with only `min_price = 5`. -/
def demoCmin : Criteria := ⟨some 5, none, none, none⟩

/-- Criteria with only `min_price = 20`: `demoCmin` with its bound raised. -/
def demoCmin20 : Criteria := ⟨some 20, none, none, none⟩

/-- Criteria with only `available_only = true`. -/
def demoCavail : Criteria := ⟨none, none, none, some true⟩

/-- Bumping key `k` raises its stored count by one. -/
theorem counterGet_inc_self (c : Counter) (k : Nat) :
    counterGet (counterInc c k) k = counterGet c k + 1 := by
  induction c with
  | nil => simp [counterInc, counterGet]
  | cons hd tl ih =>
    obtain ⟨a, b⟩ := hd
    by_cases h : a = k
    · subst h; simp [counterInc, counterGet]
    · simp [counterInc, counterGet, h, ih]

/-- Bumping key `k` leaves every other key's count unchanged. -/
theorem counterGet_inc_ne (c : Counter) (k j : Nat) (h : j ≠ k) :
    counterGet (counterInc c k) j = counterGet c j := by
  induction c with
  | nil => simp [counterInc, counterGet, Ne.symm h]
  | cons hd tl ih =>
    obtain ⟨a, b⟩ := hd
    by_cases ha : a = k
    · subst ha
      have haj : a ≠ j := fun h' => h h'.symm
      simp [counterInc, counterGet, haj]
    · simp [counterInc, counterGet, ha, ih]

/-- Folding a postings list into the counter adds its occurrence count of `i`. -/
theorem counterGet_foldl_inc (ps : List Nat) :
    ∀ (c : Counter) (i : Nat),
      counterGet (ps.foldl counterInc c) i = counterGet c i + ps.count i := by
  induction ps with
  | nil => intro c i; simp
  | cons j rest ih =>
    intro c i
    simp only [List.foldl_cons]
    rw [ih]
    by_cases h : j = i
    · subst h
      rw [counterGet_inc_self]
      simp [List.count_cons]
      try omega
    · rw [counterGet_inc_ne _ _ _ (Ne.symm h)]
      simp [List.count_cons, h]
      try omega

/-- One scoring step adds the looked-up postings list's occurrence count of `i`. -/
theorem counterGet_scoreStep (kw : Index) (c : Counter) (w : List Char) (i : Nat) :
    counterGet (scoreStep kw c w) i =
      counterGet c i + ((indexLookup kw w).getD []).count i := by
  unfold scoreStep
  cases h : indexLookup kw w with
  | none => simp
  | some ps => simp [counterGet_foldl_inc]

/-- Scanning a token list accumulates the per-token occurrence counts of `i`. -/
theorem counterGet_foldl_scoreStep (kw : Index) (ws : List (List Char)) :
    ∀ (c : Counter) (i : Nat),
      counterGet (ws.foldl (scoreStep kw) c) i =
        counterGet c i + (ws.map (fun w => ((indexLookup kw w).getD []).count i)).sum := by
  induction ws with
  | nil => intro c i; simp
  | cons w rest ih =>
    intro c i
    simp only [List.foldl_cons, List.map_cons, List.sum_cons]
    rw [ih, counterGet_scoreStep]
    omega

/-- The accumulated score of position `i` is exactly its total number of
matching query-token occurrences. -/
theorem counterGet_scoreCounter (R : List Product) (q : String) (i : Nat) :
    counterGet (scoreCounter R q) i = totalMatchOccs R q i := by
  unfold scoreCounter totalMatchOccs postingsOf
  rw [counterGet_foldl_scoreStep]
  simp [counterGet]

/-- `indexAdd` keeps every postings position below `n` when `i < n`. -/
theorem indexAdd_bounded {n : Nat} {idx : Index} (h : IndexBounded n idx)
    {i : Nat} (hi : i < n) (w : List Char) : IndexBounded n (indexAdd idx w i) := by
  induction idx with
  | nil =>
    intro e he j hj
    simp [indexAdd] at he
    subst he
    simp at hj
    omega
  | cons hd tl ih =>
    obtain ⟨a, ps⟩ := hd
    intro e he j hj
    by_cases haw : a = w
    · simp only [indexAdd, if_pos haw] at he
      rcases List.mem_cons.mp he with rfl | htl
      · rcases List.mem_append.mp hj with hj1 | hj2
        · exact h (a, ps) (List.mem_cons_self _ _) j hj1
        · simp at hj2; omega
      · exact h e (List.mem_cons_of_mem _ htl) j hj
    · simp only [indexAdd, if_neg haw] at he
      rcases List.mem_cons.mp he with rfl | htl
      · exact h (a, ps) (List.mem_cons_self _ _) j hj
      · exact ih (fun e' he' => h e' (List.mem_cons_of_mem _ he')) e htl j hj

/-- Adding one record's tokens preserves position boundedness. -/
theorem indexAddWords_bounded {n i : Nat} (ws : List (List Char)) :
    ∀ {idx : Index}, IndexBounded n idx → i < n →
      IndexBounded n (indexAddWords idx i ws) := by
  induction ws with
  | nil => intro idx h _; simpa [indexAddWords] using h
  | cons w rest ih =>
    intro idx h hi
    simp only [indexAddWords, List.foldl_cons]
    by_cases hw : w.length > 2
    · simpa [indexAddWords, hw] using ih (indexAdd_bounded h hi w) hi
    · simpa [indexAddWords, hw] using ih h hi

/-- The enumeration loop keeps all postings positions below any `n` that
bounds the starting position plus the number of remaining records. -/
theorem buildIndex_bounded (ps : List Product) :
    ∀ (i : Nat) (idx : Index) (n : Nat), IndexBounded n idx →
      i + ps.length ≤ n → IndexBounded n (buildIndex i ps idx) := by
  induction ps with
  | nil => intro i idx n h _; simpa [buildIndex] using h
  | cons p rest ih =>
    intro i idx n h hle
    simp only [buildIndex]
    apply ih
    · exact indexAddWords_bounded _ h (by simp at hle; omega)
    · simp at hle ⊢; omega

/-- The inverted index of `R` only references positions below `|R|`. -/
theorem extract_keywords_bounded (R : List Product) :
    IndexBounded R.length (extract_keywords R) := by
  apply buildIndex_bounded R 0 [] R.length
  · intro e he; simp at he
  · simp

/-- A successful lookup returns an entry of the index. -/
theorem indexLookup_mem {idx : Index} {w : List Char} {ps : List Nat}
    (h : indexLookup idx w = some ps) : (w, ps) ∈ idx := by
  induction idx with
  | nil => simp [indexLookup] at h
  | cons hd tl ih =>
    obtain ⟨a, qs⟩ := hd
    by_cases haw : a = w
    · subst haw
      simp [indexLookup] at h
      subst h
      exact List.mem_cons_self _ _
    · simp only [indexLookup, if_neg haw] at h
      exact List.mem_cons_of_mem _ (ih h)

/-- Counter keys stay below `n` when the bumped key is. -/
theorem counterInc_keys_lt {n : Nat} {c : Counter} (hc : ∀ e ∈ c, e.1 < n)
    {k : Nat} (hk : k < n) : ∀ e ∈ counterInc c k, e.1 < n := by
  induction c with
  | nil => intro e he; simp [counterInc] at he; subst he; simpa
  | cons hd tl ih =>
    obtain ⟨a, b⟩ := hd
    intro e he
    by_cases hak : a = k
    · simp only [counterInc, if_pos hak] at he
      rcases List.mem_cons.mp he with rfl | htl
      · simpa using hc (a, b) (List.mem_cons_self _ _)
      · exact hc e (List.mem_cons_of_mem _ htl)
    · simp only [counterInc, if_neg hak] at he
      rcases List.mem_cons.mp he with rfl | htl
      · exact hc (a, b) (List.mem_cons_self _ _)
      · exact ih (fun e' he' => hc e' (List.mem_cons_of_mem _ he')) e htl

/-- Folding a below-`n` postings list keeps all counter keys below `n`. -/
theorem foldl_inc_keys_lt {n : Nat} (ps : List Nat) :
    ∀ {c : Counter}, (∀ e ∈ c, e.1 < n) → (∀ j ∈ ps, j < n) →
      ∀ e ∈ ps.foldl counterInc c, e.1 < n := by
  induction ps with
  | nil => intro c hc _ e he; exact hc e he
  | cons j rest ih =>
    intro c hc hps e he
    simp only [List.foldl_cons] at he
    exact ih (counterInc_keys_lt hc (hps j (List.mem_cons_self _ _)))
      (fun j' hj' => hps j' (List.mem_cons_of_mem _ hj')) e he

/-- Every key of the score counter is a valid position of `R`. -/
theorem scoreCounter_keys_lt (R : List Product) (q : String) :
    ∀ e ∈ scoreCounter R q, e.1 < R.length := by
  unfold scoreCounter
  generalize htoks : tokenize (lowerStr q) = ws
  have main : ∀ (ws : List (List Char)) (c : Counter), (∀ e ∈ c, e.1 < R.length) →
      ∀ e ∈ ws.foldl (scoreStep (extract_keywords R)) c, e.1 < R.length := by
    intro ws
    induction ws with
    | nil => intro c hc e he; exact hc e he
    | cons w rest ih =>
      intro c hc e he
      simp only [List.foldl_cons] at he
      apply ih _ _ e he
      unfold scoreStep
      cases hw : indexLookup (extract_keywords R) w with
      | none => simpa using hc
      | some ps =>
        simp only
        exact foldl_inc_keys_lt ps hc
          (fun j hj => extract_keywords_bounded R (w, ps) (indexLookup_mem hw) j hj)
  exact main ws [] (by simp)

/-- Bumping a key present in the counter leaves the key list unchanged. -/
theorem counterInc_map_fst_mem {c : Counter} {k : Nat} (h : k ∈ c.map Prod.fst) :
    (counterInc c k).map Prod.fst = c.map Prod.fst := by
  induction c with
  | nil => simp at h
  | cons hd tl ih =>
    obtain ⟨a, b⟩ := hd
    by_cases hak : a = k
    · simp [counterInc, hak]
    · simp only [List.map_cons, List.mem_cons] at h
      rcases h with h1 | h2
      · exact absurd h1.symm hak
      · simp [counterInc, hak, ih h2]

/-- Bumping an absent key appends it to the key list. -/
theorem counterInc_map_fst_not_mem {c : Counter} {k : Nat} (h : k ∉ c.map Prod.fst) :
    (counterInc c k).map Prod.fst = c.map Prod.fst ++ [k] := by
  induction c with
  | nil => simp [counterInc]
  | cons hd tl ih =>
    obtain ⟨a, b⟩ := hd
    simp only [List.map_cons, List.mem_cons] at h
    push_neg at h
    have hak : a ≠ k := fun hh => h.1 hh.symm
    simp [counterInc, hak, ih h.2]

/-- Bumping preserves distinctness of counter keys. -/
theorem counterInc_keys_nodup {c : Counter} (h : (c.map Prod.fst).Nodup) (k : Nat) :
    ((counterInc c k).map Prod.fst).Nodup := by
  by_cases hk : k ∈ c.map Prod.fst
  · rwa [counterInc_map_fst_mem hk]
  · rw [counterInc_map_fst_not_mem hk]
    simp [List.nodup_append, h, hk]

/-- Folding a postings list preserves distinctness of counter keys. -/
theorem foldl_inc_keys_nodup (ps : List Nat) :
    ∀ {c : Counter}, (c.map Prod.fst).Nodup →
      ((ps.foldl counterInc c).map Prod.fst).Nodup := by
  induction ps with
  | nil => intro c hc; exact hc
  | cons j rest ih =>
    intro c hc
    simp only [List.foldl_cons]
    exact ih (counterInc_keys_nodup hc j)

/-- The score counter's keys are distinct: each record position occurs once. -/
theorem scoreCounter_keys_nodup (R : List Product) (q : String) :
    ((scoreCounter R q).map Prod.fst).Nodup := by
  unfold scoreCounter
  generalize tokenize (lowerStr q) = ws
  have main : ∀ (ws : List (List Char)) (c : Counter), (c.map Prod.fst).Nodup →
      (((ws.foldl (scoreStep (extract_keywords R)) c)).map Prod.fst).Nodup := by
    intro ws
    induction ws with
    | nil => intro c hc; exact hc
    | cons w rest ih =>
      intro c hc
      simp only [List.foldl_cons]
      apply ih
      unfold scoreStep
      cases indexLookup (extract_keywords R) w with
      | none => exact hc
      | some ps => exact foldl_inc_keys_nodup ps hc
  exact main ws [] (by simp)

/-- With distinct keys, a counter entry's stored value is its `counterGet`. -/
theorem counterGet_of_mem {c : Counter} (hnd : (c.map Prod.fst).Nodup)
    {i s : Nat} (h : (i, s) ∈ c) : counterGet c i = s := by
  induction c with
  | nil => simp at h
  | cons hd tl ih =>
    obtain ⟨a, b⟩ := hd
    rcases List.mem_cons.mp h with heq | htl
    · injection heq with h1 h2
      subst h1
      subst h2
      simp [counterGet]
    · have hnd' := hnd
      simp only [List.map_cons, List.nodup_cons] at hnd'
      have hai : a ≠ i := by
        intro h'
        subst h'
        exact hnd'.1 (by simpa using List.mem_map_of_mem Prod.fst htl)
      simp only [counterGet, if_neg hai]
      exact ih hnd'.2 htl

/-- Stable insertion is a permutation of consing. -/
theorem insertDesc_perm (x : Nat × Nat) (l : List (Nat × Nat)) :
    List.Perm (insertDesc x l) (x :: l) := by
  induction l with
  | nil => exact List.Perm.refl _
  | cons y ys ih =>
    by_cases h : y.2 < x.2
    · simp [insertDesc, h]
    · simp only [insertDesc, if_neg h]
      exact (ih.cons y).trans (List.Perm.swap x y ys)

/-- The insertion-sort fold permutes the accumulated and remaining entries. -/
theorem sortDescAux_perm (l : List (Nat × Nat)) :
    ∀ acc : List (Nat × Nat),
      List.Perm (l.foldl (fun acc x => insertDesc x acc) acc) (acc ++ l) := by
  induction l with
  | nil => intro acc; simp
  | cons x xs ih =>
    intro acc
    simp only [List.foldl_cons]
    exact ((ih _).trans ((insertDesc_perm x acc).append_right xs)).trans
      List.perm_middle.symm

/-- `sortDesc` permutes its input. -/
theorem sortDesc_perm (l : List (Nat × Nat)) : List.Perm (sortDesc l) l := by
  simpa [sortDesc] using sortDescAux_perm l []

/-- Membership in a stable insertion. -/
theorem insertDesc_mem {e x : Nat × Nat} {l : List (Nat × Nat)} :
    e ∈ insertDesc x l ↔ e = x ∨ e ∈ l := by
  rw [(insertDesc_perm x l).mem_iff]
  simp

/-- Stable insertion preserves descending order. -/
theorem insertDesc_sorted {l : List (Nat × Nat)} (h : SortedDesc l) (x : Nat × Nat) :
    SortedDesc (insertDesc x l) := by
  induction l with
  | nil => simp [insertDesc, SortedDesc]
  | cons y ys ih =>
    have hhd : ∀ z ∈ ys, z.2 ≤ y.2 := (List.pairwise_cons.mp h).1
    have htl : SortedDesc ys := (List.pairwise_cons.mp h).2
    by_cases hy : y.2 < x.2
    · simp only [insertDesc, if_pos hy]
      refine List.Pairwise.cons ?_ h
      intro z hz
      rcases List.mem_cons.mp hz with rfl | hz'
      · exact le_of_lt hy
      · exact le_trans (hhd z hz') (le_of_lt hy)
    · simp only [insertDesc, if_neg hy]
      refine List.Pairwise.cons ?_ (ih htl)
      intro z hz
      rcases insertDesc_mem.mp hz with rfl | hz'
      · exact Nat.le_of_not_lt hy
      · exact hhd z hz'

/-- Stability of the insertion: among entries of one fixed count, a newly
inserted entry lands strictly after all existing ones. -/
theorem insertDesc_filter {l : List (Nat × Nat)} (h : SortedDesc l)
    (x : Nat × Nat) (s : Nat) :
    (insertDesc x l).filter (fun e => e.2 == s) =
      if x.2 == s then l.filter (fun e => e.2 == s) ++ [x]
      else l.filter (fun e => e.2 == s) := by
  induction l with
  | nil =>
    by_cases hx : x.2 == s <;> simp [insertDesc, List.filter, hx]
  | cons y ys ih =>
    have hhd : ∀ z ∈ ys, z.2 ≤ y.2 := (List.pairwise_cons.mp h).1
    have htl : SortedDesc ys := (List.pairwise_cons.mp h).2
    by_cases hy : y.2 < x.2
    · simp only [insertDesc, if_pos hy]
      by_cases hx : x.2 == s
      · have hx2 : x.2 = s := by simpa using hx
        have hf : (y :: ys).filter (fun e => e.2 == s) = [] := by
          rw [List.filter_eq_nil_iff]
          intro z hz
          have hzle : z.2 ≤ y.2 := by
            rcases List.mem_cons.mp hz with rfl | hz'
            · exact le_refl _
            · exact hhd z hz'
          simp only [beq_iff_eq]
          omega
        rw [hf]
        simp [List.filter_cons, hx, hf]
      · simp [List.filter_cons, hx]
    · simp only [insertDesc, if_neg hy]
      rw [List.filter_cons, List.filter_cons, ih htl]
      by_cases hys : y.2 == s <;> by_cases hx : x.2 == s <;>
        simp [hys, hx]

/-- The insertion-sort fold keeps the accumulator sorted. -/
theorem sortDescAux_sorted (l : List (Nat × Nat)) :
    ∀ {acc : List (Nat × Nat)}, SortedDesc acc →
      SortedDesc (l.foldl (fun acc x => insertDesc x acc) acc) := by
  induction l with
  | nil => intro acc h; exact h
  | cons x xs ih =>
    intro acc h
    simp only [List.foldl_cons]
    exact ih (insertDesc_sorted h x)

/-- Stability of the fold: the entries of any one fixed count come out in
exactly their input order. -/
theorem sortDescAux_filter (l : List (Nat × Nat)) (s : Nat) :
    ∀ {acc : List (Nat × Nat)}, SortedDesc acc →
      (l.foldl (fun acc x => insertDesc x acc) acc).filter (fun e => e.2 == s) =
        acc.filter (fun e => e.2 == s) ++ l.filter (fun e => e.2 == s) := by
  induction l with
  | nil => intro acc _; simp
  | cons x xs ih =>
    intro acc h
    simp only [List.foldl_cons]
    rw [ih (insertDesc_sorted h x), insertDesc_filter h x s, List.filter_cons]
    by_cases hx : x.2 == s <;> simp [hx]

/-- `sortDesc` is a stable sort: restricted to any one count value it is
the identity on the input order. -/
theorem sortDesc_filter (l : List (Nat × Nat)) (s : Nat) :
    (sortDesc l).filter (fun e => e.2 == s) = l.filter (fun e => e.2 == s) := by
  have h := sortDescAux_filter l s ((by simp [SortedDesc]) : SortedDesc [])
  simpa [sortDesc] using h

/-- C5: every position occurring in any postings list of the inverted index
built from a record collection R is in range [0, |R|), i.e. a valid index
into R. -/
theorem C5_index_positions_valid (R : List Product) (w : List Char)
    (ps : List Nat) (h : (w, ps) ∈ extract_keywords R) (i : Nat) (hi : i ∈ ps) :
    i < R.length :=
  extract_keywords_bounded R (w, ps) h i hi

/-- Witness for C5 at a concrete record collection. -/
theorem C5_witness :
    (("apple".data, ([0, 0] : List Nat)) ∈ extract_keywords [demoApple]) ∧
      0 < ([demoApple] : List Product).length :=
  ⟨by decide,
   C5_index_positions_valid [demoApple] "apple".data [0, 0] (by decide) 0 (by decide)⟩

/-- The score counter has at most one entry per record position, all valid,
so it is no longer than the record collection. -/
theorem scoreCounter_length_le (R : List Product) (q : String) :
    (scoreCounter R q).length ≤ R.length := by
  have hnd := scoreCounter_keys_nodup R q
  have hlt := scoreCounter_keys_lt R q
  have hsub : ((scoreCounter R q).map Prod.fst).toFinset ⊆ Finset.range R.length := by
    intro x hx
    rw [List.mem_toFinset, List.mem_map] at hx
    obtain ⟨e, he, rfl⟩ := hx
    rw [Finset.mem_range]
    exact hlt e he
  have hc : ((scoreCounter R q).map Prod.fst).length ≤ R.length := by
    calc ((scoreCounter R q).map Prod.fst).length
        = ((scoreCounter R q).map Prod.fst).toFinset.card :=
          (List.toFinset_card_of_nodup hnd).symm
      _ ≤ (Finset.range R.length).card := Finset.card_le_card hsub
      _ = R.length := Finset.card_range _
  simpa using hc

/-- C4: the Relevance Scorer's output has length at most min(top_k, |R|);
being a total function of its inputs it always returns a list, also on an
empty collection. -/
theorem C4_retrieve_length_le (R : List Product) (q : String) (k : Nat) :
    (retrieve_relevant_products R q k).length ≤ min k R.length := by
  unfold retrieve_relevant_products
  by_cases h : ((retrieveRanked R q k).map
      (fun e => (⟨R.getD e.1 default, some e.2⟩ : ScoredProduct))).isEmpty
  · rw [if_pos h]
    simp [List.length_take]
  · rw [if_neg h]
    have h1 : (retrieveRanked R q k).length = min k (scoreCounter R q).length := by
      unfold retrieveRanked
      rw [List.length_take, (sortDesc_perm (scoreCounter R q)).length_eq]
    have h2 := scoreCounter_length_le R q
    rw [List.length_map, h1]
    exact min_le_min (le_refl k) h2

/-- C2: when no query token appears in the index, the Scorer returns the
first top_k records of the collection, each without a relevance score. -/
theorem C2_fallback (R : List Product) (q : String) (k : Nat)
    (h : ((tokenize (lowerStr q)).all
      (fun w => (indexLookup (extract_keywords R) w).isNone)) = true) :
    retrieve_relevant_products R q k = (R.take k).map (fun p => ⟨p, none⟩) := by
  rw [List.all_eq_true] at h
  have hsc : scoreCounter R q = [] := by
    unfold scoreCounter
    generalize htoks : tokenize (lowerStr q) = ws at h
    have main : ∀ (ws : List (List Char)),
        (∀ w ∈ ws, (indexLookup (extract_keywords R) w).isNone = true) →
        ∀ c : Counter, ws.foldl (scoreStep (extract_keywords R)) c = c := by
      intro ws
      induction ws with
      | nil => intro _ c; rfl
      | cons w rest ih =>
        intro hall c
        simp only [List.foldl_cons]
        rw [show scoreStep (extract_keywords R) c w = c from by
          unfold scoreStep
          rw [Option.isNone_iff_eq_none.mp (hall w (List.mem_cons_self _ _))]]
        exact ih (fun w' hw' => hall w' (List.mem_cons_of_mem _ hw')) c
    exact main ws h []
  unfold retrieve_relevant_products retrieveRanked
  rw [hsc]
  simp [sortDesc]

/-- Witness for C2: a query with no token in the index falls back. -/
theorem C2_witness :
    ((tokenize (lowerStr "zebra")).all
        (fun w => (indexLookup (extract_keywords [demoApple]) w).isNone)) = true ∧
      retrieve_relevant_products [demoApple] "zebra" 3 =
        (([demoApple] : List Product).take 3).map (fun p => ⟨p, none⟩) :=
  ⟨by decide, C2_fallback [demoApple] "zebra" 3 (by decide)⟩

/-- C1 as stated fails on the code: one distinct matching query token yields
score 2 on a record that repeats the token, because postings multiplicity is
accumulated. -/
theorem C1_counterexample :
    ((0, 2) ∈ retrieveRanked [demoApple] "apple" 5) ∧
      specDistinctMatched [demoApple] "apple" 0 = 1 ∧ ¬ (2 ≤ 1) := by
  refine ⟨by decide, by decide, by decide⟩

/-- C1 amended: the score the Scorer assigns to a record equals (hence is at
most) the total number of matching query-token occurrences for it — query
tokens counted with multiplicity, and each counted once per occurrence of the
record in that token's postings list — not the distinct-token count. -/
theorem C1_score_eq_totalMatchOccs (R : List Product) (q : String) (k : Nat)
    (i s : Nat) (h : (i, s) ∈ retrieveRanked R q k) : s = totalMatchOccs R q i := by
  have h1 : (i, s) ∈ sortDesc (scoreCounter R q) := List.mem_of_mem_take h
  have h2 : (i, s) ∈ scoreCounter R q := (sortDesc_perm _).mem_iff.mp h1
  have h3 := counterGet_of_mem (scoreCounter_keys_nodup R q) h2
  rw [← h3, counterGet_scoreCounter]

/-- Witness for the amended C1 at the duplicate-token record. -/
theorem C1_witness :
    ((0, 2) ∈ retrieveRanked [demoApple] "apple" 5) ∧
      2 = totalMatchOccs [demoApple] "apple" 0 :=
  ⟨by decide, C1_score_eq_totalMatchOccs [demoApple] "apple" 5 0 2 (by decide)⟩

/-- C3 as stated fails on the code: two records tie at score 1, yet the
record at position 1 precedes the record at position 0 in the output,
because ties follow first-encountered order over query tokens, not the
collection's index order. -/
theorem C3_counterexample :
    retrieveRanked [demoB, demoA] "aaa bbb" 5 = [(1, 1), (0, 1)] ∧
      retrieve_relevant_products [demoB, demoA] "aaa bbb" 5 =
        [⟨demoA, some 1⟩, ⟨demoB, some 1⟩] ∧ demoA ≠ demoB := by
  refine ⟨by decide, by decide, by decide⟩

/-- C3 amended: ties are broken by first-encountered order during score
accumulation — among entries of any one score, the ranked output is a prefix
of the score counter's first-insertion order (stable sort with respect to
counter insertion order, not collection index order). -/
theorem C3_ties_first_encountered (R : List Product) (q : String) (k s : Nat) :
    ((retrieveRanked R q k).filter (fun e => e.2 == s)) <+:
      ((scoreCounter R q).filter (fun e => e.2 == s)) := by
  have hpre : (retrieveRanked R q k) <+: sortDesc (scoreCounter R q) :=
    ⟨(sortDesc (scoreCounter R q)).drop k, List.take_append_drop k _⟩
  have hf := hpre.filter (fun e => e.2 == s)
  rwa [sortDesc_filter] at hf

/-- C6: with a price bound configured, a record whose comma-stripped price
text contains no digit (hence no decimal-number substring) is excluded from
the filter's output; the filter is total, so it never raises. -/
theorem C6_unparseable_price_excluded (R : List Product) (c : Criteria)
    (p : Product) (hset : (c.min_price.isSome || c.max_price.isSome) = true)
    (hnum : (stripCommas (p.price.getD "").data).all (fun ch => !ch.isDigit) = true) :
    p ∉ filter_by_criteria R c := by
  intro hmem
  rw [filter_by_criteria, List.mem_filter] at hmem
  have hm := hmem.2
  rw [List.all_eq_true] at hnum
  have hdrop : (stripCommas (p.price.getD "").data).dropWhile
      (fun c => !c.isDigit) = [] := by
    rw [List.dropWhile_eq_nil_iff]
    intro x hx
    exact hnum x hx
  have hext : extractNumber (stripCommas (p.price.getD "").data) = none := by
    unfold extractNumber
    rw [hdrop]
    rfl
  have hp : priceOk c p = false := by
    unfold priceOk
    rw [if_pos hset, hext]
  rw [matchesCriteria, hp] at hm
  simp at hm

/-- Witness for C6: an "N/A" price under a `min_price` bound is excluded. -/
theorem C6_witness :
    ((demoCmin.min_price.isSome || demoCmin.max_price.isSome) = true) ∧
      ((stripCommas (demoNAPrice.price.getD "").data).all
        (fun ch => !ch.isDigit) = true) ∧
      demoNAPrice ∉ filter_by_criteria [demoNAPrice] demoCmin :=
  ⟨by decide, by decide,
   C6_unparseable_price_excluded [demoNAPrice] demoCmin demoNAPrice
     (by decide) (by decide)⟩

/-- C7: with `available_only` true, the filter keeps a record iff its
lower-cased availability text contains neither "out of stock" nor
"unavailable" and the other configured constraints pass; a record with
absent availability text passes the availability constraint. -/
theorem C7_available_only_iff (R : List Product) (c : Criteria) (p : Product)
    (h : c.available_only = some true) :
    (p ∈ filter_by_criteria R c ↔
      p ∈ R ∧ priceOk c p = true ∧ ratingOk c p = true ∧
        containsSub "out of stock".data (availText p) = false ∧
        containsSub "unavailable".data (availText p) = false) ∧
    (p.availability = none → availOk c p = true) := by
  constructor
  · rw [filter_by_criteria, List.mem_filter, matchesCriteria]
    unfold availOk
    rw [h]
    simp only [Bool.and_eq_true, Bool.not_eq_true', Bool.or_eq_false_iff]
    tauto
  · intro hnone
    unfold availOk
    rw [h]
    simp [availText, hnone, containsSub]

/-- Witness for C7: Example 1 of the specification, at the Widget record. -/
theorem C7_witness :
    (widgetP ∈ filter_by_criteria [widgetP, gadgetP] demoCavail ↔
      widgetP ∈ [widgetP, gadgetP] ∧ priceOk demoCavail widgetP = true ∧
        ratingOk demoCavail widgetP = true ∧
        containsSub "out of stock".data (availText widgetP) = false ∧
        containsSub "unavailable".data (availText widgetP) = false) ∧
    (widgetP.availability = none → availOk demoCavail widgetP = true) :=
  C7_available_only_iff [widgetP, gadgetP] demoCavail widgetP (by decide)

/-- The price block only reads the two price bounds. -/
theorem priceOk_congr {c c' : Criteria} (h1 : c.min_price = c'.min_price)
    (h2 : c.max_price = c'.max_price) (p : Product) :
    priceOk c p = priceOk c' p := by
  unfold priceOk
  rw [h1, h2]

/-- The rating block only reads `min_rating`. -/
theorem ratingOk_congr {c c' : Criteria} (h : c.min_rating = c'.min_rating)
    (p : Product) : ratingOk c p = ratingOk c' p := by
  unfold ratingOk
  rw [h]

/-- The availability block only reads `available_only`. -/
theorem availOk_congr {c c' : Criteria} (h : c.available_only = c'.available_only)
    (p : Product) : availOk c p = availOk c' p := by
  unfold availOk
  rw [h]

/-- Raising `min_price` only shrinks the set of passing records. -/
theorem priceOk_min_mono {a a' : ℚ} (hle : a ≤ a') {c c' : Criteria}
    (hm : c.min_price = some a) (hm' : c'.min_price = some a')
    (hx : c'.max_price = c.max_price) (p : Product)
    (h : priceOk c' p = true) : priceOk c p = true := by
  unfold priceOk at h ⊢
  rw [hm', hx] at h
  rw [hm]
  rw [if_pos (by simp)] at h
  rw [if_pos (by simp)]
  cases hE : extractNumber (stripCommas (p.price.getD "").data) with
  | none => rw [hE] at h; exact absurd h (by simp)
  | some price =>
    rw [hE] at h
    simp only [Bool.and_eq_true, Bool.not_eq_true', decide_eq_false_iff_not] at h ⊢
    exact ⟨fun hlt => h.1 (lt_of_lt_of_le hlt hle), h.2⟩

/-- Lowering `max_price` only shrinks the set of passing records. -/
theorem priceOk_max_mono {b b' : ℚ} (hle : b' ≤ b) {c c' : Criteria}
    (hm : c.max_price = some b) (hm' : c'.max_price = some b')
    (hx : c'.min_price = c.min_price) (p : Product)
    (h : priceOk c' p = true) : priceOk c p = true := by
  unfold priceOk at h ⊢
  rw [hm', hx] at h
  rw [hm]
  rw [if_pos (by simp)] at h
  rw [if_pos (by simp)]
  cases hE : extractNumber (stripCommas (p.price.getD "").data) with
  | none => rw [hE] at h; exact absurd h (by simp)
  | some price =>
    rw [hE] at h
    simp only [Bool.and_eq_true, Bool.not_eq_true', decide_eq_false_iff_not] at h ⊢
    exact ⟨h.1, fun hlt => h.2 (lt_of_le_of_lt hle hlt)⟩

/-- Raising `min_rating` only shrinks the set of passing records. -/
theorem ratingOk_min_mono {r r' : ℚ} (hle : r ≤ r') {c c' : Criteria}
    (hm : c.min_rating = some r) (hm' : c'.min_rating = some r') (p : Product)
    (h : ratingOk c' p = true) : ratingOk c p = true := by
  unfold ratingOk at h ⊢
  rw [hm'] at h
  rw [hm]
  cases hE : extractNumber (p.rating.getD "").data with
  | none => rw [hE] at h; exact absurd h (by simp)
  | some rv =>
    rw [hE] at h
    simp only [Bool.not_eq_true', decide_eq_false_iff_not] at h ⊢
    exact fun hlt => h (lt_of_lt_of_le hlt hle)

/-- A record passing a one-bound-tightened criteria passes the original. -/
theorem matchesCriteria_mono {ct cl : Criteria} (h : Tightens ct cl) (p : Product)
    (hp : matchesCriteria ct p = true) : matchesCriteria cl p = true := by
  rw [matchesCriteria, Bool.and_eq_true, Bool.and_eq_true] at hp ⊢
  obtain ⟨⟨hpr, hra⟩, hav⟩ := hp
  rcases h with ⟨a, a', hma, hma', hle, hx, hr, hv⟩ |
    ⟨b, b', hmb, hmb', hle, hx, hr, hv⟩ |
    ⟨r, r', hmr, hmr', hle, hx1, hx2, hv⟩ | ⟨hun, hset, hx1, hx2, hx3⟩
  · exact ⟨⟨priceOk_min_mono hle hma hma' hx p hpr,
      by rwa [ratingOk_congr hr.symm]⟩, by rwa [availOk_congr hv.symm]⟩
  · exact ⟨⟨priceOk_max_mono hle hmb hmb' hx p hpr,
      by rwa [ratingOk_congr hr.symm]⟩, by rwa [availOk_congr hv.symm]⟩
  · exact ⟨⟨by rwa [priceOk_congr hx1.symm hx2.symm],
      ratingOk_min_mono hle hmr hmr' p hra⟩, by rwa [availOk_congr hv.symm]⟩
  · refine ⟨⟨by rwa [priceOk_congr hx1.symm hx2.symm],
      by rwa [ratingOk_congr hx3.symm]⟩, ?_⟩
    unfold availOk
    rcases hun with h0 | h0 <;> rw [h0]

/-- C8: tightening one bound of the Criteria never enlarges the Criteria
Filter's output on the same record collection. -/
theorem C8_filter_mono (R : List Product) (ct cl : Criteria)
    (h : Tightens ct cl) :
    (filter_by_criteria R ct).length ≤ (filter_by_criteria R cl).length := by
  unfold filter_by_criteria
  exact (List.monotone_filter_right R
    (fun p hp => matchesCriteria_mono h p hp)).length_le

/-- Witness for C8: raising `min_price` from 5 to 20 on Example 1's records. -/
theorem C8_witness :
    Tightens demoCmin20 demoCmin ∧
      (filter_by_criteria [widgetP, gadgetP] demoCmin20).length ≤
        (filter_by_criteria [widgetP, gadgetP] demoCmin).length :=
  ⟨Or.inl ⟨5, 20, rfl, rfl, by norm_num, rfl, rfl, rfl⟩,
   C8_filter_mono [widgetP, gadgetP] demoCmin20 demoCmin
     (Or.inl ⟨5, 20, rfl, rfl, by norm_num, rfl, rfl, rfl⟩)⟩

/-- C9: when a query matches both a price-intent phrase set and a
rating-intent phrase set, the output `sort_by` is the rating-derived value,
since the rating tests run after the price tests and overwrite `sort_by`. -/
theorem C9_rating_overrides_price (query : String)
    (_h1 : (cheapHit (lowerStr query) || expHit (lowerStr query)) = true)
    (h2 : (bestHit (lowerStr query) || worstHit (lowerStr query)) = true) :
    (analyze_query_intent query).sort_by = ratingSort (lowerStr query) ∧
      (ratingSort (lowerStr query)).isSome = true := by
  unfold analyze_query_intent ratingSort
  by_cases hb : bestHit (lowerStr query)
  · simp [hb]
  · have hw : worstHit (lowerStr query) = true := by
      simp [hb] at h2
      exact h2
    simp [hb, hw]

/-- Witness for C9: a query with both cheapness and quality language. -/
theorem C9_witness :
    (cheapHit (lowerStr "cheapest best laptop") ||
      expHit (lowerStr "cheapest best laptop")) = true ∧
    (bestHit (lowerStr "cheapest best laptop") ||
      worstHit (lowerStr "cheapest best laptop")) = true ∧
    ((analyze_query_intent "cheapest best laptop").sort_by =
        ratingSort (lowerStr "cheapest best laptop") ∧
      (ratingSort (lowerStr "cheapest best laptop")).isSome = true) :=
  ⟨by decide, by decide,
   C9_rating_overrides_price "cheapest best laptop" (by decide) (by decide)⟩

/-- An infix occurrence makes the substring test succeed. -/
theorem containsSubComplete {n h : List Char} (hinf : n <:+: h) :
    containsSub n h = true := by
  induction h with
  | nil =>
    obtain ⟨s, t, hst⟩ := hinf
    have : n = [] := by
      cases s <;> cases n <;> simp_all
    simp [containsSub, this]
  | cons c cs ih =>
    obtain ⟨s, t, hst⟩ := hinf
    cases s with
    | nil =>
      have hpre : n <+: c :: cs := ⟨t, by simpa using hst⟩
      unfold containsSub
      rw [Bool.or_eq_true, List.isPrefixOf_iff_prefix]
      exact Or.inl hpre
    | cons d s' =>
      have htail : n <:+: cs := ⟨s', t, by simpa using congrArg List.tail hst⟩
      unfold containsSub
      rw [Bool.or_eq_true]
      exact Or.inr (ih htail)

/-- C10: the Intent Analyzer's phrase tests are plain substring tests on the
whole query, so any query containing "available" — including one containing
only "unavailable" — yields `available_only = true`. -/
theorem C10_available_substring (query : String)
    (h : "available".data <:+: query.data) :
    (analyze_query_intent query).available_only = some true := by
  have hmap : "available".data <:+: lowerStr query := by
    have hm := h.map Char.toLower
    rw [show ("available".data).map Char.toLower = "available".data from by decide] at hm
    exact hm
  have hhit : availHit (lowerStr query) = true := by
    unfold availHit
    rw [containsSubComplete hmap]
    simp
  unfold analyze_query_intent
  simp [hhit]

/-- Witness for C10: the query "unavailable" still sets `available_only`. -/
theorem C10_witness :
    ("available".data <:+: ("unavailable" : String).data) ∧
      (analyze_query_intent "unavailable").available_only = some true :=
  ⟨by decide, C10_available_substring "unavailable" (by decide)⟩
